import Mathlib

/-
Verification of the path resolver and manifest loader of cv-data-viewer
(src/app.py).

Model conventions (a no-symlink POSIX filesystem):
* A `Path` is the list of components of an absolute path ("/a/b" is
  `["a", "b"]`, the root "/" is `[]`).  Components are slash-free strings;
  "." and ".." may occur in unresolved paths and are eliminated by
  `normalize`, which models `pathlib.Path.resolve` on a filesystem without
  symbolic links.
* A `RawPath` is a user-supplied path string as `pathlib` parses it: an
  absolute flag plus components.  The empty relative `RawPath` stands for a
  blank manifest line (empty string after `strip()`).
* `FS` packages the filesystem state an execution reads: which paths are
  regular files / directories, each file's modification time (as `Nat`,
  standing for the `st_mtime` float), the text lines of each manifest file
  (already split and stripped, each line parsed as a `RawPath`), the working
  directory and the home directory (for `expanduser`).
* Existence tests on possibly-relative paths go through `resolveRaw`
  (cwd-join plus normalization), matching kernel path lookup on a
  symlink-free tree.
-/

namespace CVDataViewer

abbrev Path := List String

structure RawPath where
  isAbs : Bool
  comps : List String
deriving DecidableEq

structure FS where
  isFile : Path → Bool
  isDir : Path → Bool
  mtime : Path → Nat
  lines : Path → List RawPath
  cwd : Path
  home : Path

/-- os.path existence: a path exists iff it is a regular file or a directory. -/
def FS.pathExists (fs : FS) (p : Path) : Bool :=
  fs.isFile p || fs.isDir p

/-- One step of `..`/`.` elimination, as `Path.resolve` performs it. -/
def normStep (acc : Path) (c : String) : Path :=
  if c = "." then acc
  else if c = ".." then acc.dropLast
  else acc ++ [c]

/-- `Path.resolve` on an absolute path of a symlink-free tree: drop `.`
components and let `..` pop the previous component (at the root, `/..`
stays at the root). -/
def normalize (p : Path) : Path :=
  p.foldl normStep []

/-- `Path.resolve`: relative paths are joined onto the current working
directory, then the result is normalized. -/
def resolveRaw (fs : FS) (r : RawPath) : Path :=
  normalize (if r.isAbs then r.comps else fs.cwd ++ r.comps)

/-- `Path.expanduser`: a relative path whose first component is `~` is
replaced by the home directory followed by the rest; all other paths are
unchanged. -/
def expanduser (fs : FS) (r : RawPath) : RawPath :=
  if r.isAbs = false ∧ r.comps.head? = some "~" then ⟨true, fs.home ++ r.comps.tail⟩
  else r

/-- `PurePosixPath.as_posix` of a relative path given by its components. -/
def joinSlash : List String → String
  | [] => ""
  | [a] => a
  | a :: rest => a ++ "/" ++ joinSlash rest

/-- `str(path)` for an absolute path (`str(Path("/"))` is `"/"`). -/
def pathToString (p : Path) : String :=
  "/" ++ joinSlash p

/-- `s.startswith(p)` on Python strings (character-wise). -/
def strStartsWith (s p : String) : Bool :=
  List.isPrefixOf p.toList s.toList

/-- Python string slicing `s[n:]` (by characters). -/
def strDropChars (s : String) (n : Nat) : String :=
  String.mk (s.toList.drop n)

/-- Python `s.lstrip("/")`. -/
def lstripSlash (s : String) : String :=
  String.mk (s.toList.dropWhile (· = '/'))

/-- Python `s.lower()` (ASCII case folding suffices for the extensions). -/
def strLower (s : String) : String :=
  String.mk (s.toList.map Char.toLower)

def splitSlashAux : List Char → List Char → List String
  | [], acc => [String.mk acc.reverse]
  | c :: rest, acc =>
    if c = '/' then String.mk acc.reverse :: splitSlashAux rest [] else splitSlashAux rest (c :: acc)

/-- Components of a relative path string, as the `Path` constructor parses
it (empty components from repeated or stray slashes are dropped). -/
def splitPath (s : String) : List String :=
  (splitSlashAux s.toList []).filter (· ≠ "")

/-- Index of the last `.` in a file name, `str.rfind('.')`. -/
def lastDotIdx (cs : List Char) : Option Nat :=
  (List.range cs.length).foldl (fun acc i => if cs.getD i ' ' = '.' then some i else acc) none

/-- `PurePath.suffix`: the extension from the last dot, empty when the last
dot is the first character or the final character of the name. -/
def pySuffix (name : String) : String :=
  let cs := name.toList
  match lastDotIdx cs with
  | some i => if 0 < i ∧ i + 1 < cs.length then String.mk (cs.drop i) else ""
  | none => ""

/-- `PurePath.stem` relative to `pySuffix`. -/
def pyStem (name : String) : String :=
  let cs := name.toList
  match lastDotIdx cs with
  | some i => if 0 < i ∧ i + 1 < cs.length then String.mk (cs.take i) else name
  | none => name

/-- `PurePath.with_suffix` on a (nonempty) file name. -/
def withSuffix (name suf : String) : String :=
  pyStem name ++ suf

-- Configuration constants of src/app.py.

def IMAGE_EXTS : List String := [".jpg", ".jpeg", ".png", ".bmp", ".webp"]

def LABEL_EXT : String := ".txt"

def HOST_DATA_ROOT : Path := ["Users", "jihunjang", "Downloads"]

def CONTAINER_DATA_ROOT : Path := ["datasets"]

def hostRootStr : String := pathToString HOST_DATA_ROOT

/-- `str(Path(path_str).expanduser().resolve())` of `resolve_dataset_path`. -/
def expandedStr (fs : FS) (raw : RawPath) : String :=
  pathToString (resolveRaw fs (expanduser fs raw))

/-- The container-mapped path of `resolve_dataset_path`: strip the host-root
string prefix, strip leading slashes, join onto the container root,
resolve. -/
def hostMapped (fs : FS) (raw : RawPath) : Path :=
  normalize (CONTAINER_DATA_ROOT ++ splitPath (lstripSlash (strDropChars (expandedStr fs raw) hostRootStr.toList.length)))

/-- src/app.py `resolve_dataset_path` (lines 88-123).  Step 1: return the
literal path resolved if it exists.  Step 2: if the expanded absolute path
string starts with the host root string, map it under the container root and
return the mapped path if that exists.  Otherwise return the original
candidate unchanged (the `except` branch only swallows errors and also falls
through to the same return). -/
def resolve_dataset_path (fs : FS) (raw : RawPath) : RawPath :=
  if fs.pathExists (resolveRaw fs raw) then ⟨true, resolveRaw fs raw⟩
  else if strStartsWith (expandedStr fs raw) hostRootStr then
    (if fs.pathExists (hostMapped fs raw) then ⟨true, hostMapped fs raw⟩ else raw)
  else raw

/-- `(base_dir.resolve() / cleaned).expanduser().resolve()` of
`resolve_path_with_base`; joining an absolute `cleaned` discards the base,
and `expanduser` is a no-op on the absolute join. -/
def tentativeOf (raw : RawPath) (b : Path) : Path :=
  normalize (if raw.isAbs then raw.comps else normalize b ++ raw.comps)

/-- src/app.py `resolve_path_with_base` (lines 125-135). -/
def resolve_path_with_base (fs : FS) (raw : RawPath) (base : Option Path) : RawPath :=
  let candidate := resolve_dataset_path fs raw
  if fs.pathExists (resolveRaw fs candidate) then candidate
  else
    match base with
    | some b =>
      if fs.pathExists (tentativeOf raw b) then ⟨true, tentativeOf raw b⟩ else candidate
    | none => candidate

/-- src/app.py `_join_file_if_exists` (lines 137-148): reject absolute
relative parts, resolve the join, reject candidates that escape the resolved
base (`relative_to` check), and require a regular file. -/
def join_file_if_exists (fs : FS) (base : Path) (rel : RawPath) : Option Path :=
  if rel.isAbs then none
  else
    let b := normalize base
    let c := normalize (b ++ rel.comps)
    if List.isPrefixOf b c then (if fs.isFile c then some c else none) else none

/-- `Path(rel_str).with_suffix(LABEL_EXT)` on a nonempty relative path. -/
def relWithSuffix (rel : List String) : List String :=
  rel.dropLast ++ [withSuffix (rel.getLastD "") LABEL_EXT]

/-- The relative candidates `image_path.relative_to(ancestor)` produced by
iterating `for ancestor in image_path.parents` (nearest ancestor first): the
nonempty suffixes of the component list, shortest first. -/
def ancestorRels : List String → List (List String)
  | [] => []
  | a :: rest => ancestorRels rest ++ [a :: rest]

/-- The body of one loop iteration of `find_label_for_image`: substitute the
label extension on the relative candidate and probe it under the label
root. -/
def hitAt (fs : FS) (lr : Path) (rel : List String) : Option (String × String × Path) :=
  match join_file_if_exists fs lr ⟨false, relWithSuffix rel⟩ with
  | some c => some (joinSlash rel, joinSlash (relWithSuffix rel), c)
  | none => none

/-- The ancestor loop of `find_label_for_image` (lines 153-165), with the
`seen_relatives` set threaded through; returns the first hit and the final
set. -/
def findLabelLoop (fs : FS) (lr : Path) : List (List String) → List String → Option (String × String × Path) × List String
  | [], seen => (none, seen)
  | rel :: rest, seen =>
    if joinSlash rel ∈ seen then findLabelLoop fs lr rest seen
    else
      match hitAt fs lr rel with
      | some r => (some r, seen ++ [joinSlash rel])
      | none => findLabelLoop fs lr rest (seen ++ [joinSlash rel])

/-- src/app.py `find_label_for_image` (lines 150-174): ancestor walk, then
the filename-only fallback guarded by `seen_relatives`.  For the root path
(no components, name `""`) Python's `with_suffix` raises `ValueError` in the
fallback, so no value is produced; that branch is modeled as `none`. -/
def find_label_for_image (fs : FS) (image_path : Path) (label_root : Path) : Option (String × String × Path) :=
  match findLabelLoop fs (normalize label_root) (ancestorRels image_path) [] with
  | (some r, _) => some r
  | (none, seen) =>
    if joinSlash [image_path.getLastD ""] ∈ seen then none
    else if image_path.getLastD "" = "" then none
    else hitAt fs (normalize label_root) [image_path.getLastD ""]

/-- Replace the first `images` component that is followed by at least one
further component with `labels`.  On the rendered absolute path string this
is exactly `path_str.replace('/images/', '/labels/', 1)` guarded by
`'/images/' in path_str`: since components are slash-free, the substring
`/images/` occurs in `str(p)` precisely at non-final components equal to
`images`. -/
def replaceFirstImages : List String → Option (List String)
  | [] => none
  | a :: rest =>
    if rest.isEmpty then none
    else if a = "images" then some ("labels" :: rest)
    else (replaceFirstImages rest).map (a :: ·)

/-- `Path(label_str).with_suffix(LABEL_EXT)` applied to a whole path. -/
def withSuffixPath (p : Path) : Path :=
  p.dropLast ++ [withSuffix (p.getLastD "") LABEL_EXT]

/-- src/app.py `auto_find_label_from_image_path` (lines 177-193). -/
def auto_find_label_from_image_path (fs : FS) (image_path : Path) : Option Path :=
  match replaceFirstImages image_path with
  | some lp =>
    if fs.pathExists (withSuffixPath lp) then some (withSuffixPath lp) else none
  | none => none

structure TxtEntry where
  image_path : Path
  label_path : Path
  rel_path : String
  label_rel : String
deriving DecidableEq

abbrev CacheKey := String × String

abbrev CacheVal := Nat × List TxtEntry × List (String × TxtEntry)

abbrev Cache := List (CacheKey × CacheVal)

/-- `_TXT_CACHE.get(cache_key)`. -/
def cacheLookup (c : Cache) (k : CacheKey) : Option CacheVal :=
  match c with
  | [] => none
  | (k', v) :: rest => if k' = k then some v else cacheLookup rest k

/-- `_TXT_CACHE[cache_key] = ...`: a Python dict assignment replaces the
value of an existing key in place and appends a fresh key at the end. -/
def insertReplace : Cache → CacheKey → CacheVal → Cache
  | [], k, v => [(k, v)]
  | (k', v') :: rest, k, v =>
    if k' = k then (k, v) :: rest else (k', v') :: insertReplace rest k v

/-- The second cache-key component: `str(label_dir_path.resolve())` or the
sentinel `"auto"` (no resolved absolute path renders to `"auto"`). -/
def labelDirKey : Option Path → String
  | some p => pathToString (normalize p)
  | none => "auto"

/-- One iteration of the manifest loop of `load_train_entries`
(lines 213-248), before deduplication: blank-line skip, resolution with the
manifest directory as base, the existence / regular-file / extension checks,
then label discovery in the explicit or auto mode.  A candidate passing the
existence check is necessarily the resolved absolute path produced by one of
the resolver's successful branches, so the entry stores it directly
(`image_path_candidate.resolve()` is the same path again). -/
def processLine (fs : FS) (trainDir : Path) (labelDir : Option Path) (line : RawPath) : Option TxtEntry :=
  if line.isAbs = false ∧ line.comps = [] then none
  else if fs.pathExists (resolveRaw fs (resolve_path_with_base fs line (some trainDir))) = false then
    none
  else if fs.isFile (resolveRaw fs (resolve_path_with_base fs line (some trainDir))) = false then
    none
  else if strLower (pySuffix ((resolve_path_with_base fs line (some trainDir)).comps.getLastD "")) ∉ IMAGE_EXTS then
    none
  else
    match labelDir with
    | some ld =>
      match find_label_for_image fs (resolveRaw fs (resolve_path_with_base fs line (some trainDir))) ld with
      | some (rel, lrel, labs) =>
        some ⟨resolveRaw fs (resolve_path_with_base fs line (some trainDir)), labs, rel, lrel⟩
      | none => none
    | none =>
      match auto_find_label_from_image_path fs (resolveRaw fs (resolve_path_with_base fs line (some trainDir))) with
      | some labs =>
        some ⟨resolveRaw fs (resolve_path_with_base fs line (some trainDir)), labs,
              (resolveRaw fs (resolve_path_with_base fs line (some trainDir))).getLastD "",
              labs.getLastD ""⟩
      | none => none

/-- The manifest loop with the `seen_rel_paths` dedup set. -/
def parseLines (fs : FS) (trainDir : Path) (labelDir : Option Path) : List RawPath → List String → List TxtEntry
  | [], _ => []
  | l :: rest, seen =>
    match processLine fs trainDir labelDir l with
    | none => parseLines fs trainDir labelDir rest seen
    | some e =>
      if e.rel_path ∈ seen then parseLines fs trainDir labelDir rest seen
      else e :: parseLines fs trainDir labelDir rest (seen ++ [e.rel_path])

/-- The full (cache-less) parse of `load_train_entries`: iterate over the
manifest's lines with the manifest's own directory (`train_file_path.parent`)
as resolution base. -/
def parseTrainEntries (fs : FS) (tf : Path) (labelDir : Option Path) : List TxtEntry :=
  parseLines fs tf.dropLast labelDir (fs.lines tf) []

/-- `entries_by_rel = {entry.rel_path: entry for entry in entries}`;
`rel_path`s are distinct after deduplication, so the dict is this pairing. -/
def mapOfEntries (es : List TxtEntry) : List (String × TxtEntry) :=
  es.map (fun e => (e.rel_path, e))

/-- src/app.py `load_train_entries` (lines 195-252), with the module-global
`_TXT_CACHE` passed and returned explicitly. -/
def load_train_entries (fs : FS) (cache : Cache) (trainFile : Path) (labelDir : Option Path) : List TxtEntry × Cache :=
  let tf := normalize trainFile
  let key : CacheKey := (pathToString tf, labelDirKey labelDir)
  let m := fs.mtime tf
  match cacheLookup cache key with
  | some (m0, es, _) =>
    if m0 = m then (es, cache)
    else
      let es' := parseTrainEntries fs tf labelDir
      (es', insertReplace cache key (m, es', mapOfEntries es'))
  | none =>
    let es' := parseTrainEntries fs tf labelDir
    (es', insertReplace cache key (m, es', mapOfEntries es'))

/-! Basic lemmas about normalization and the cache. -/

lemma foldl_normStep_noDots : ∀ (l : List String) (acc : Path),
    (∀ c ∈ acc, c ≠ "." ∧ c ≠ "..") →
    ∀ c ∈ List.foldl normStep acc l, c ≠ "." ∧ c ≠ ".." := by
  intro l
  induction l with
  | nil => intro acc hacc; simpa using hacc
  | cons a l ih =>
    intro acc hacc
    simp only [List.foldl_cons]
    apply ih
    unfold normStep
    split
    · exact hacc
    · split
      · intro c hc
        exact hacc c ((List.dropLast_sublist acc).subset hc)
      · intro c hc
        rcases List.mem_append.mp hc with h | h
        · exact hacc c h
        · rcases List.mem_singleton.mp h with rfl
          constructor <;> assumption

lemma normalize_noDots (p : Path) : ∀ c ∈ normalize p, c ≠ "." ∧ c ≠ ".." :=
  foldl_normStep_noDots p [] (by simp)

lemma foldl_normStep_clean : ∀ (l : List String),
    (∀ c ∈ l, c ≠ "." ∧ c ≠ "..") →
    ∀ acc, List.foldl normStep acc l = acc ++ l := by
  intro l
  induction l with
  | nil => intro _ acc; simp
  | cons a l ih =>
    intro h acc
    have ha := h a (List.mem_cons_self a l)
    have hl : ∀ c ∈ l, c ≠ "." ∧ c ≠ ".." := fun c hc => h c (List.mem_cons_of_mem a hc)
    simp only [List.foldl_cons]
    have hstep : normStep acc a = acc ++ [a] := by
      unfold normStep
      rw [if_neg ha.1, if_neg ha.2]
    rw [hstep, ih hl]
    simp

lemma normalize_normalize (p : Path) : normalize (normalize p) = normalize p := by
  have := foldl_normStep_clean (normalize p) (normalize_noDots p) []
  simpa [normalize] using this

lemma resolveRaw_abs (fs : FS) (c : Path) : resolveRaw fs ⟨true, c⟩ = normalize c := rfl

lemma resolveRaw_of_normalized (fs : FS) (p : Path) :
    resolveRaw fs ⟨true, normalize p⟩ = normalize p := by
  rw [resolveRaw_abs, normalize_normalize]

lemma cacheLookup_insertReplace (c : Cache) (k : CacheKey) (v : CacheVal) :
    cacheLookup (insertReplace c k v) k = some v := by
  induction c with
  | nil => simp [insertReplace, cacheLookup]
  | cons kv rest ih =>
    obtain ⟨k', v'⟩ := kv
    unfold insertReplace
    by_cases h : k' = k
    · simp [h, cacheLookup]
    · simp [h, cacheLookup, ih]

/-! Claim C1: the cache is consulted by key and invalidated purely by the
manifest's modification time. -/

/-- C1: for every cache key (resolved manifest path paired with the resolved
label directory string or the sentinel `"auto"`), a stored parse is returned
only when the stored modification time equals the manifest's current one;
any mismatch makes `load_train_entries` re-parse the manifest in full and
overwrite the cache entry in place with the new
(mtime, entries, mapping) triple.  The file's text content plays no role:
`fs.lines` may be byte-identical and the re-parse still happens. -/
theorem cache_used_only_with_matching_mtime (fs : FS) (cache : Cache) (tf : Path)
    (ld : Option Path) (m0 : Nat) (es : List TxtEntry) (mp : List (String × TxtEntry))
    (h : cacheLookup cache (pathToString (normalize tf), labelDirKey ld) = some (m0, es, mp)) :
    (m0 = fs.mtime (normalize tf) →
      load_train_entries fs cache tf ld = (es, cache))
    ∧ (m0 ≠ fs.mtime (normalize tf) →
      load_train_entries fs cache tf ld =
        (parseTrainEntries fs (normalize tf) ld,
         insertReplace cache (pathToString (normalize tf), labelDirKey ld)
           (fs.mtime (normalize tf), parseTrainEntries fs (normalize tf) ld,
            mapOfEntries (parseTrainEntries fs (normalize tf) ld)))) := by
  constructor
  · intro hm
    unfold load_train_entries
    simp only [h, hm, if_true]
  · intro hm
    unfold load_train_entries
    simp [h, hm]

/-! Claim C2: re-invoking the loader on an unchanged filesystem returns the
identical entry list. -/

/-- C2: calling `load_train_entries` a second time against the same
filesystem state (same modification time, same content) returns a list equal
in content and order to the first call's list. -/
theorem load_train_entries_idempotent (fs : FS) (cache : Cache) (tf : Path) (ld : Option Path) :
    (load_train_entries fs (load_train_entries fs cache tf ld).2 tf ld).1 =
      (load_train_entries fs cache tf ld).1 := by
  unfold load_train_entries
  rcases hl : cacheLookup cache (pathToString (normalize tf), labelDirKey ld) with _ | ⟨m0, es, mp⟩
  · simp only [hl, cacheLookup_insertReplace]
    simp
  · by_cases hm : m0 = fs.mtime (normalize tf)
    · simp [hl, hm]
    · simp only [hl, if_neg hm, cacheLookup_insertReplace]
      simp

/-! Concrete filesystem used by the witnesses. -/

def filesW : List Path :=
  [["data", "train.txt"],
   ["data", "images", "a.jpg"],
   ["data", "labels", "a.txt"],
   ["data", "sub", "c.jpg"],
   ["datasets", "set1", "b.jpg"],
   ["ds2", "images", "train", "d.jpg"],
   ["ds2", "labels", "train", "d.txt"]]

def dirsW : List Path :=
  [[], ["data"], ["data", "images"], ["data", "labels"], ["data", "sub"],
   ["datasets"], ["datasets", "set1"],
   ["ds2"], ["ds2", "images"], ["ds2", "images", "train"],
   ["ds2", "labels"], ["ds2", "labels", "train"]]

def linesW : List RawPath :=
  [⟨true, ["data", "images", "a.jpg"]⟩,
   ⟨false, []⟩,
   ⟨true, ["ds2", "images", "train", "d.jpg"]⟩,
   ⟨true, ["data", "images", "a.jpg"]⟩]

def fsW : FS where
  isFile := fun p => p ∈ filesW
  isDir := fun p => p ∈ dirsW
  mtime := fun p => if p = ["data", "train.txt"] then 5 else 0
  lines := fun p => if p = ["data", "train.txt"] then linesW else []
  cwd := []
  home := ["home", "u"]

/-- A cache entry for the manifest whose stored mtime (3) is stale. -/
def staleCacheW : Cache := [(("/data/train.txt", "auto"), (3, [], []))]

/-- A cache entry for the manifest whose stored mtime (5) is current but whose
stored entry list is empty, visibly different from a fresh parse. -/
def freshCacheW : Cache := [(("/data/train.txt", "auto"), (5, [], []))]

theorem cache_used_only_with_matching_mtime_w :
    load_train_entries fsW staleCacheW ["data", "train.txt"] none =
      (parseTrainEntries fsW (normalize ["data", "train.txt"]) none,
       insertReplace staleCacheW (pathToString (normalize ["data", "train.txt"]), labelDirKey none)
         (fsW.mtime (normalize ["data", "train.txt"]),
          parseTrainEntries fsW (normalize ["data", "train.txt"]) none,
          mapOfEntries (parseTrainEntries fsW (normalize ["data", "train.txt"]) none)))
    ∧ load_train_entries fsW freshCacheW ["data", "train.txt"] none = ([], freshCacheW) :=
  ⟨(cache_used_only_with_matching_mtime fsW staleCacheW ["data", "train.txt"] none 3 [] []
      (by decide)).2 (by decide),
   (cache_used_only_with_matching_mtime fsW freshCacheW ["data", "train.txt"] none 5 [] []
      (by decide)).1 (by decide)⟩

/-! Claims C3 and C4: the resolver's step order and its silent failure. -/

lemma normalize_resolveRaw (fs : FS) (r : RawPath) :
    normalize (resolveRaw fs r) = resolveRaw fs r :=
  normalize_normalize _

lemma normalize_hostMapped (fs : FS) (raw : RawPath) :
    normalize (hostMapped fs raw) = hostMapped fs raw :=
  normalize_normalize _

lemma normalize_tentativeOf (raw : RawPath) (b : Path) :
    normalize (tentativeOf raw b) = tentativeOf raw b :=
  normalize_normalize _

/-- C3: the resolver tries its steps in order.  (1) A literal path that
exists is returned (resolved).  (2) Otherwise, when the expanded absolute
path string starts with the host-root prefix and the container-mapped path
exists, the mapped path is returned.  (3) Otherwise, when a base directory
is supplied and the join of the raw path onto it exists, that join is
returned.  (4) Otherwise the original raw path is returned unchanged. -/
theorem resolver_step_order (fs : FS) (raw : RawPath) (base : Option Path) :
    (fs.pathExists (resolveRaw fs raw) = true →
      resolve_path_with_base fs raw base = ⟨true, resolveRaw fs raw⟩)
    ∧ (fs.pathExists (resolveRaw fs raw) = false →
      strStartsWith (expandedStr fs raw) hostRootStr = true →
      fs.pathExists (hostMapped fs raw) = true →
      resolve_path_with_base fs raw base = ⟨true, hostMapped fs raw⟩)
    ∧ (∀ b : Path, fs.pathExists (resolveRaw fs raw) = false →
      (strStartsWith (expandedStr fs raw) hostRootStr = false
        ∨ fs.pathExists (hostMapped fs raw) = false) →
      base = some b →
      fs.pathExists (tentativeOf raw b) = true →
      resolve_path_with_base fs raw base = ⟨true, tentativeOf raw b⟩)
    ∧ (fs.pathExists (resolveRaw fs raw) = false →
      (strStartsWith (expandedStr fs raw) hostRootStr = false
        ∨ fs.pathExists (hostMapped fs raw) = false) →
      (∀ b : Path, base = some b → fs.pathExists (tentativeOf raw b) = false) →
      resolve_path_with_base fs raw base = raw) := by
  refine ⟨?_, ?_, ?_, ?_⟩
  · intro h1
    have hrdp : resolve_dataset_path fs raw = ⟨true, resolveRaw fs raw⟩ := by
      simp [resolve_dataset_path, h1]
    unfold resolve_path_with_base
    rw [hrdp]
    simp only [resolveRaw_abs, normalize_resolveRaw, h1, if_true]
  · intro h1 h2 h3
    have hrdp : resolve_dataset_path fs raw = ⟨true, hostMapped fs raw⟩ := by
      simp [resolve_dataset_path, h1, h2, h3]
    unfold resolve_path_with_base
    rw [hrdp]
    simp only [resolveRaw_abs, normalize_hostMapped, h3, if_true]
  · intro b h1 h2 hb ht
    have hrdp : resolve_dataset_path fs raw = raw := by
      rcases h2 with h2 | h2 <;> simp [resolve_dataset_path, h1, h2]
    unfold resolve_path_with_base
    rw [hrdp, hb]
    simp [h1, ht]
  · intro h1 h2 hb
    have hrdp : resolve_dataset_path fs raw = raw := by
      rcases h2 with h2 | h2 <;> simp [resolve_dataset_path, h1, h2]
    unfold resolve_path_with_base
    rw [hrdp]
    rcases base with _ | b
    · simp [h1]
    · simp [h1, hb b rfl]

theorem resolver_step_order_w :
    resolve_path_with_base fsW ⟨true, ["data", "images", "a.jpg"]⟩ (some ["data"]) =
      ⟨true, ["data", "images", "a.jpg"]⟩
    ∧ resolve_path_with_base fsW ⟨true, ["Users", "jihunjang", "Downloads", "set1", "b.jpg"]⟩
        (some ["data"]) = ⟨true, ["datasets", "set1", "b.jpg"]⟩
    ∧ resolve_path_with_base fsW ⟨false, ["sub", "c.jpg"]⟩ (some ["data"]) =
      ⟨true, ["data", "sub", "c.jpg"]⟩
    ∧ resolve_path_with_base fsW ⟨false, ["nope.jpg"]⟩ (some ["data"]) = ⟨false, ["nope.jpg"]⟩ := by
  refine ⟨?_, ?_, ?_, ?_⟩
  · exact ((resolver_step_order fsW ⟨true, ["data", "images", "a.jpg"]⟩ (some ["data"])).1
      (by decide)).trans (by decide)
  · exact ((resolver_step_order fsW ⟨true, ["Users", "jihunjang", "Downloads", "set1", "b.jpg"]⟩
      (some ["data"])).2.1 (by decide) (by decide) (by decide)).trans (by decide)
  · exact ((resolver_step_order fsW ⟨false, ["sub", "c.jpg"]⟩ (some ["data"])).2.2.1
      ["data"] (by decide) (Or.inl (by decide)) rfl (by decide)).trans (by decide)
  · exact (resolver_step_order fsW ⟨false, ["nope.jpg"]⟩ (some ["data"])).2.2.2
      (by decide) (Or.inl (by decide))
      (fun b hb => by injection hb with h; subst h; decide)

/-- C4: the resolver is a total function of the filesystem state (the Python
`except` clause swallows the only possible errors and falls through to the
same return), and for a path under the host root whose container mapping
does not exist, `resolve_dataset_path` returns the original unmapped path;
that returned path is non-existent, which is the only failure signal. -/
theorem resolver_mapping_miss_returns_original (fs : FS) (raw : RawPath)
    (h1 : fs.pathExists (resolveRaw fs raw) = false)
    (h2 : strStartsWith (expandedStr fs raw) hostRootStr = true)
    (h3 : fs.pathExists (hostMapped fs raw) = false) :
    resolve_dataset_path fs raw = raw ∧ fs.pathExists (resolveRaw fs raw) = false := by
  refine ⟨?_, h1⟩
  simp [resolve_dataset_path, h1, h2, h3]

theorem resolver_mapping_miss_returns_original_w :
    resolve_dataset_path fsW ⟨true, ["Users", "jihunjang", "Downloads", "nope", "z.jpg"]⟩ =
      ⟨true, ["Users", "jihunjang", "Downloads", "nope", "z.jpg"]⟩
    ∧ fsW.pathExists (resolveRaw fsW ⟨true, ["Users", "jihunjang", "Downloads", "nope", "z.jpg"]⟩) =
      false :=
  (resolver_mapping_miss_returns_original fsW
    ⟨true, ["Users", "jihunjang", "Downloads", "nope", "z.jpg"]⟩
    (by decide) (by decide) (by decide))

/-! Claims C6, C9, C10: the explicit-label-directory search. -/

lemma joinSlash_cons (a : String) (s : List String) (h : s ≠ []) :
    joinSlash (a :: s) = a ++ "/" ++ joinSlash s := by
  cases s with
  | nil => exact absurd rfl h
  | cons b t => rfl

lemma joinSlash_lt (s : List String) (hs : s ≠ []) :
    ∀ m : List String, m ≠ [] → (joinSlash s).length < (joinSlash (m ++ s)).length := by
  intro m
  induction m with
  | nil => intro h; exact absurd rfl h
  | cons a m ih =>
    intro _
    rcases eq_or_ne m [] with rfl | hm
    · rw [List.singleton_append, joinSlash_cons a s hs,
        String.length_append, String.length_append]
      have h1 : ("/" : String).length = 1 := rfl
      omega
    · have h1 := ih hm
      have hms : m ++ s ≠ [] := by
        intro hc
        exact hm (List.append_eq_nil.mp hc).1
      rw [List.cons_append, joinSlash_cons a (m ++ s) hms,
        String.length_append, String.length_append]
      have h2 : ("/" : String).length = 1 := rfl
      omega

lemma ancestorRels_ne_nil_mem : ∀ (p : List String), ∀ r ∈ ancestorRels p,
    r ≠ [] ∧ ∃ m, m ++ r = p := by
  intro p
  induction p with
  | nil => intro r hr; simp [ancestorRels] at hr
  | cons a rest ih =>
    intro r hr
    rw [ancestorRels] at hr
    rcases List.mem_append.mp hr with h | h
    · obtain ⟨hne, m, hm⟩ := ih r h
      exact ⟨hne, a :: m, by rw [List.cons_append, hm]⟩
    · rcases List.mem_singleton.mp h with rfl
      exact ⟨by simp, [], rfl⟩

lemma ancestorRels_pairwise_ne (p : List String) :
    (ancestorRels p).Pairwise (fun r1 r2 => joinSlash r1 ≠ joinSlash r2) := by
  have hps : ∀ q : List String,
      (ancestorRels q).Pairwise (fun r1 r2 => r1 ≠ [] ∧ ∃ m, m ≠ [] ∧ m ++ r1 = r2) := by
    intro q
    induction q with
    | nil => simp [ancestorRels]
    | cons a rest ih =>
      rw [ancestorRels, List.pairwise_append]
      refine ⟨ih, List.pairwise_singleton _ _, ?_⟩
      intro r1 h1 r2 h2
      rcases List.mem_singleton.mp h2 with rfl
      obtain ⟨hne, m, hm⟩ := ancestorRels_ne_nil_mem rest r1 h1
      exact ⟨hne, a :: m, by simp, by rw [List.cons_append, hm]⟩
  refine List.Pairwise.imp_of_mem (fun {r1 r2} h1 h2 hrel => ?_) (hps p)
  obtain ⟨hne, m, hm_ne, hm⟩ := hrel
  intro heq
  have hlt := joinSlash_lt r1 hne m hm_ne
  rw [hm, ← heq] at hlt
  exact lt_irrefl _ hlt

lemma ancestorRels_mem_last : ∀ (p : List String), p ≠ [] →
    [p.getLastD ""] ∈ ancestorRels p := by
  intro p
  induction p with
  | nil => intro h; exact absurd rfl h
  | cons a rest ih =>
    intro _
    rw [ancestorRels]
    rcases eq_or_ne rest [] with rfl | hr
    · simp [ancestorRels]
    · have hmem := ih hr
      have hgl : (a :: rest).getLastD "" = rest.getLastD "" := by
        rcases rest with _ | ⟨b, u⟩
        · exact absurd rfl hr
        · simp [List.getLastD_cons]
      rw [hgl]
      exact List.mem_append_left _ hmem

lemma ancestorRels_head : ∀ (p : List String), p ≠ [] →
    ∃ t, ancestorRels p = [p.getLastD ""] :: t := by
  intro p
  induction p with
  | nil => intro h; exact absurd rfl h
  | cons a rest ih =>
    intro _
    rw [ancestorRels]
    rcases eq_or_ne rest [] with rfl | hr
    · exact ⟨[], by simp [ancestorRels]⟩
    · obtain ⟨t, ht⟩ := ih hr
      refine ⟨t ++ [a :: rest], ?_⟩
      rw [ht, List.cons_append]
      have hgl : (a :: rest).getLastD "" = rest.getLastD "" := by
        rcases rest with _ | ⟨b, u⟩
        · exact absurd rfl hr
        · simp [List.getLastD_cons]
      rw [hgl]

lemma findLabelLoop_seen_mono (fs : FS) (lr : Path) :
    ∀ (rels : List (List String)) (seen : List String) (x : String),
      x ∈ seen → x ∈ (findLabelLoop fs lr rels seen).2 := by
  intro rels
  induction rels with
  | nil => intro seen x hx; simpa [findLabelLoop] using hx
  | cons rel rest ih =>
    intro seen x hx
    by_cases hm : joinSlash rel ∈ seen
    · rw [findLabelLoop, if_pos hm]
      exact ih seen x hx
    · rw [findLabelLoop, if_neg hm]
      cases hh : hitAt fs lr rel with
      | some r => simp [hx]
      | none => exact ih (seen ++ [joinSlash rel]) x (by simp [hx])

lemma findLabelLoop_none_all_seen (fs : FS) (lr : Path) :
    ∀ (rels : List (List String)) (seen : List String),
      (findLabelLoop fs lr rels seen).1 = none →
      ∀ r ∈ rels, joinSlash r ∈ (findLabelLoop fs lr rels seen).2 := by
  intro rels
  induction rels with
  | nil => intro seen _ r hr; simp at hr
  | cons rel rest ih =>
    intro seen hnone r hr
    by_cases hm : joinSlash rel ∈ seen
    · rw [findLabelLoop, if_pos hm] at hnone ⊢
      rcases List.mem_cons.mp hr with rfl | hr
      · exact findLabelLoop_seen_mono fs lr rest seen _ hm
      · exact ih seen hnone r hr
    · rw [findLabelLoop, if_neg hm] at hnone ⊢
      cases hh : hitAt fs lr rel with
      | some rr => rw [hh] at hnone; simp at hnone
      | none =>
        rw [hh] at hnone
        rcases List.mem_cons.mp hr with rfl | hr
        · exact findLabelLoop_seen_mono fs lr rest _ _ (by simp)
        · exact ih _ hnone r hr

lemma findLabelLoop_eq_findSome (fs : FS) (lr : Path) :
    ∀ (rels : List (List String)) (seen : List String),
      (∀ r ∈ rels, joinSlash r ∉ seen) →
      rels.Pairwise (fun r1 r2 => joinSlash r1 ≠ joinSlash r2) →
      (findLabelLoop fs lr rels seen).1 = rels.findSome? (hitAt fs lr) := by
  intro rels
  induction rels with
  | nil => intro seen _ _; simp [findLabelLoop]
  | cons rel rest ih =>
    intro seen hs hp
    have hm : joinSlash rel ∉ seen := hs rel (List.mem_cons_self rel rest)
    rw [findLabelLoop, if_neg hm, List.findSome?_cons]
    cases hh : hitAt fs lr rel with
    | some r => rfl
    | none =>
      refine ih (seen ++ [joinSlash rel]) ?_ ?_
      · intro r hr
        simp only [List.mem_append, List.mem_singleton]
        rintro (h | h)
        · exact hs r (List.mem_cons_of_mem _ hr) h
        · exact (List.pairwise_cons.mp hp).1 r hr h.symm
      · exact (List.pairwise_cons.mp hp).2

lemma findLabelLoop_some_hit (fs : FS) (lr : Path) :
    ∀ (rels : List (List String)) (seen : List String) (x : String × String × Path),
      (findLabelLoop fs lr rels seen).1 = some x →
      ∃ rel, hitAt fs lr rel = some x := by
  intro rels
  induction rels with
  | nil => intro seen x h; simp [findLabelLoop] at h
  | cons rel rest ih =>
    intro seen x h
    by_cases hm : joinSlash rel ∈ seen
    · rw [findLabelLoop, if_pos hm] at h
      exact ih seen x h
    · rw [findLabelLoop, if_neg hm] at h
      cases hh : hitAt fs lr rel with
      | some r =>
        rw [hh] at h
        have h2 : some r = some x := h
        injection h2 with h3
        exact ⟨rel, by rw [hh, h3]⟩
      | none =>
        rw [hh] at h
        exact ih _ x h

/-- The ancestor-walk loop alone, without the filename-only fallback branch
(the comparison point of the refinement claim). -/
def find_label_loop_only (fs : FS) (image_path : Path) (label_root : Path) :
    Option (String × String × Path) :=
  (findLabelLoop fs (normalize label_root) (ancestorRels image_path) []).1

lemma find_label_eq_loop_only (fs : FS) (image root : Path) (h : image ≠ []) :
    find_label_for_image fs image root = find_label_loop_only fs image root := by
  unfold find_label_for_image find_label_loop_only
  rcases hl : findLabelLoop fs (normalize root) (ancestorRels image) [] with ⟨res, seen⟩
  cases res with
  | some r => rfl
  | none =>
    have hmem := ancestorRels_mem_last image h
    have hseen : joinSlash [image.getLastD ""] ∈ seen := by
      have hall := findLabelLoop_none_all_seen fs (normalize root) (ancestorRels image) []
        (by rw [hl]) _ hmem
      rwa [hl] at hall
    simp only [List.getLastD_eq_getLast?] at hseen
    simp [hseen]

lemma find_label_eq_findSome (fs : FS) (image root : Path) (h : image ≠ []) :
    find_label_for_image fs image root =
      (ancestorRels image).findSome? (hitAt fs (normalize root)) := by
  rw [find_label_eq_loop_only fs image root h]
  exact findLabelLoop_eq_findSome fs (normalize root) (ancestorRels image) []
    (by simp) (ancestorRels_pairwise_ne image)

lemma find_label_some_hit (fs : FS) (image root : Path) (x : String × String × Path)
    (h : find_label_for_image fs image root = some x) :
    ∃ rel, hitAt fs (normalize root) rel = some x := by
  unfold find_label_for_image at h
  rcases hl : findLabelLoop fs (normalize root) (ancestorRels image) [] with ⟨res, seen⟩
  rw [hl] at h
  cases res with
  | some r =>
    refine findLabelLoop_some_hit fs (normalize root) (ancestorRels image) [] x ?_
    rw [hl]
    simpa using h
  | none =>
    simp only [List.getLastD_eq_getLast?] at h
    by_cases hm : joinSlash [(image.getLast?).getD ""] ∈ seen
    · simp [hm] at h
    · by_cases hn : (image.getLast?).getD "" = ""
      · simp [hm, hn] at h
      · refine ⟨[(image.getLast?).getD ""], ?_⟩
        simpa [hm, hn] using h

lemma join_file_some (fs : FS) (base : Path) (rel : RawPath) (c : Path)
    (h : join_file_if_exists fs base rel = some c) :
    List.isPrefixOf (normalize base) c = true ∧ fs.isFile c = true := by
  by_cases hab : rel.isAbs = true
  · rw [join_file_if_exists, if_pos hab] at h
    exact Option.noConfusion h
  · rw [join_file_if_exists, if_neg hab] at h
    simp only [] at h
    by_cases hpf : List.isPrefixOf (normalize base) (normalize (normalize base ++ rel.comps)) = true
    · rw [if_pos hpf] at h
      by_cases hf : fs.isFile (normalize (normalize base ++ rel.comps)) = true
      · rw [if_pos hf] at h
        injection h with h'
        subst h'
        exact ⟨hpf, hf⟩
      · rw [if_neg hf] at h
        exact Option.noConfusion h
    · rw [if_neg hpf] at h
      exact Option.noConfusion h

lemma hitAt_some_join (fs : FS) (lr : Path) (rel : List String) (x : String × String × Path)
    (h : hitAt fs lr rel = some x) :
    join_file_if_exists fs lr ⟨false, relWithSuffix rel⟩ = some x.2.2 := by
  unfold hitAt at h
  rcases hj : join_file_if_exists fs lr ⟨false, relWithSuffix rel⟩ with _ | c
  · rw [hj] at h
    exact Option.noConfusion h
  · rw [hj] at h
    injection h with h'
    rw [← h']

/-- C9: `_join_file_if_exists` rejects absolute relative parts and joins
that escape the resolved base directory, so every label path returned by
`find_label_for_image` lies inside (below or at) the resolved label root and
is a regular file — a containment guarantee the spec does not state. -/
theorem label_containment (fs : FS) :
    (∀ (base : Path) (rel : RawPath), rel.isAbs = true →
      join_file_if_exists fs base rel = none)
    ∧ (∀ (base : Path) (rel : RawPath),
      List.isPrefixOf (normalize base) (normalize (normalize base ++ rel.comps)) = false →
      join_file_if_exists fs base rel = none)
    ∧ (∀ (image root : Path) (r lrel : String) (c : Path),
      find_label_for_image fs image root = some (r, lrel, c) →
      List.isPrefixOf (normalize root) c = true ∧ fs.isFile c = true) := by
  refine ⟨?_, ?_, ?_⟩
  · intro base rel hab
    rw [join_file_if_exists, if_pos hab]
  · intro base rel hpf
    by_cases hab : rel.isAbs = true
    · rw [join_file_if_exists, if_pos hab]
    · rw [join_file_if_exists, if_neg hab]
      simp only []
      rw [if_neg (by simp [hpf])]
  · intro image root r lrel c h
    obtain ⟨rel, hrel⟩ := find_label_some_hit fs image root (r, lrel, c) h
    have hj := hitAt_some_join fs (normalize root) rel (r, lrel, c) hrel
    have := join_file_some fs (normalize root) ⟨false, relWithSuffix rel⟩ c hj
    rwa [normalize_normalize] at this

theorem label_containment_w :
    join_file_if_exists fsW ["data", "labels"] ⟨true, ["data", "labels", "a.txt"]⟩ = none
    ∧ join_file_if_exists fsW ["data", "labels"] ⟨false, ["..", "images", "a.jpg"]⟩ = none
    ∧ (List.isPrefixOf (normalize ["data", "labels"]) ["data", "labels", "a.txt"] = true
        ∧ fsW.isFile ["data", "labels", "a.txt"] = true) :=
  ⟨(label_containment fsW).1 ["data", "labels"] ⟨true, ["data", "labels", "a.txt"]⟩ (by decide),
   (label_containment fsW).2.1 ["data", "labels"] ⟨false, ["..", "images", "a.jpg"]⟩ (by decide),
   (label_containment fsW).2.2 ["data", "images", "a.jpg"] ["data", "labels"]
     "a.jpg" "a.txt" ["data", "labels", "a.txt"] (by decide)⟩

/-- C6: in explicit-label-directory mode the search walks the image's
ancestors from nearest to farthest, testing for each the image's relative
path with the label extension substituted under the resolved label root, and
returns the first match (`findSome?` over the candidates in ancestor order);
moreover a same-named label directly at the label root is returned (it is
the nearest-ancestor candidate, which the filename-only fallback lookup
duplicates). -/
theorem explicit_label_search_order (fs : FS) (image root : Path) (h : image ≠ []) :
    find_label_for_image fs image root =
      (ancestorRels image).findSome? (hitAt fs (normalize root))
    ∧ (∀ x : String × String × Path,
      hitAt fs (normalize root) [image.getLastD ""] = some x →
      find_label_for_image fs image root = some x) := by
  refine ⟨find_label_eq_findSome fs image root h, ?_⟩
  intro x hx
  rw [find_label_eq_findSome fs image root h]
  obtain ⟨t, ht⟩ := ancestorRels_head image h
  rw [ht, List.findSome?_cons, hx]

theorem explicit_label_search_order_w :
    find_label_for_image fsW ["data", "images", "a.jpg"] ["data", "labels"] =
      some ("a.jpg", "a.txt", ["data", "labels", "a.txt"]) :=
  (explicit_label_search_order fsW ["data", "images", "a.jpg"] ["data", "labels"]
    (by decide)).2 ("a.jpg", "a.txt", ["data", "labels", "a.txt"]) (by decide)

/-- C10: for every image path with at least one parent directory (a nonempty
component list) the function equals the ancestor loop alone: the nearest
ancestor (the image's own parent) contributes the bare filename as the first
relative candidate, so the filename-only fallback after the loop is dead
code. -/
theorem fallback_branch_never_fires (fs : FS) (image root : Path) (h : image ≠ []) :
    find_label_for_image fs image root = find_label_loop_only fs image root
    ∧ (ancestorRels image).head? = some [image.getLastD ""] := by
  refine ⟨find_label_eq_loop_only fs image root h, ?_⟩
  obtain ⟨t, ht⟩ := ancestorRels_head image h
  rw [ht]
  rfl

theorem fallback_branch_never_fires_w :
    find_label_for_image fsW ["data", "images", "zz.jpg"] ["data", "labels"] =
      find_label_loop_only fsW ["data", "images", "zz.jpg"] ["data", "labels"]
    ∧ (ancestorRels ["data", "images", "zz.jpg"]).head? = some ["zz.jpg"] :=
  fallback_branch_never_fires fsW ["data", "images", "zz.jpg"] ["data", "labels"] (by decide)

/-! Claim C7: auto-mapping mode. -/

lemma replaceFirstImages_none (p : List String) (h : "images" ∉ p) :
    replaceFirstImages p = none := by
  induction p with
  | nil => rfl
  | cons a rest ih =>
    have ha : a ≠ "images" := fun hc => h (hc ▸ List.mem_cons_self a rest)
    have hrest : "images" ∉ rest := fun hc => h (List.mem_cons_of_mem a hc)
    rw [replaceFirstImages]
    by_cases he : rest.isEmpty
    · rw [if_pos he]
    · rw [if_neg he, if_neg ha, ih hrest]
      rfl

/-- C7: in auto-mapping mode the label is obtained by replacing the first
`images` path segment (a non-final component, exactly the first occurrence
of the substring `/images/` in the rendered absolute path) with `labels`,
substituting the `.txt` extension on the file name, and accepting the result
only if that exact path exists; an image path with no `images` segment never
resolves a label, and such a manifest line produces no entry. -/
theorem auto_label_mapping (fs : FS) :
    (∀ p lp : Path, replaceFirstImages p = some lp →
      auto_find_label_from_image_path fs p =
        (if fs.pathExists (withSuffixPath lp) = true then some (withSuffixPath lp) else none))
    ∧ (∀ p : Path, "images" ∉ p → auto_find_label_from_image_path fs p = none)
    ∧ (∀ (d : Path) (line : RawPath),
      "images" ∉ resolveRaw fs (resolve_path_with_base fs line (some d)) →
      processLine fs d none line = none) := by
  refine ⟨?_, ?_, ?_⟩
  · intro p lp h
    unfold auto_find_label_from_image_path
    rw [h]
  · intro p h
    unfold auto_find_label_from_image_path
    rw [replaceFirstImages_none p h]
  · intro d line h
    have hauto : auto_find_label_from_image_path fs
        (resolveRaw fs (resolve_path_with_base fs line (some d))) = none := by
      unfold auto_find_label_from_image_path
      rw [replaceFirstImages_none _ h]
    rw [processLine.eq_def]
    by_cases hb : line.isAbs = false ∧ line.comps = []
    · rw [if_pos hb]
    · rw [if_neg hb]
      by_cases h1 : fs.pathExists (resolveRaw fs (resolve_path_with_base fs line (some d))) = false
      · rw [if_pos h1]
      · rw [if_neg h1]
        by_cases h2 : fs.isFile (resolveRaw fs (resolve_path_with_base fs line (some d))) = false
        · rw [if_pos h2]
        · rw [if_neg h2]
          by_cases h3 : strLower (pySuffix
              ((resolve_path_with_base fs line (some d)).comps.getLastD "")) ∉ IMAGE_EXTS
          · rw [if_pos h3]
          · rw [if_neg h3, hauto]

theorem auto_label_mapping_w :
    auto_find_label_from_image_path fsW ["ds2", "images", "train", "d.jpg"] =
      some ["ds2", "labels", "train", "d.txt"]
    ∧ auto_find_label_from_image_path fsW ["data", "sub", "c.jpg"] = none
    ∧ processLine fsW ["data"] none ⟨true, ["data", "sub", "c.jpg"]⟩ = none :=
  ⟨((auto_label_mapping fsW).1 ["ds2", "images", "train", "d.jpg"]
      ["ds2", "labels", "train", "d.jpg"] (by decide)).trans (by decide),
   (auto_label_mapping fsW).2.1 ["data", "sub", "c.jpg"] (by decide),
   (auto_label_mapping fsW).2.2 ["data"] ⟨true, ["data", "sub", "c.jpg"]⟩ (by decide)⟩

/-! Claim C5: per-line filtering of the manifest loop. -/

lemma processLine_some_checks (fs : FS) (d : Path) (ld : Option Path) (line : RawPath)
    (e : TxtEntry) (h : processLine fs d ld line = some e) :
    ¬(line.isAbs = false ∧ line.comps = [])
    ∧ fs.pathExists (resolveRaw fs (resolve_path_with_base fs line (some d))) = true
    ∧ fs.isFile (resolveRaw fs (resolve_path_with_base fs line (some d))) = true
    ∧ strLower (pySuffix ((resolve_path_with_base fs line (some d)).comps.getLastD ""))
        ∈ IMAGE_EXTS := by
  rw [processLine.eq_def] at h
  split at h
  · exact Option.noConfusion h
  · split at h
    · exact Option.noConfusion h
    · split at h
      · exact Option.noConfusion h
      · split at h
        · exact Option.noConfusion h
        · rename_i hb h1 h2 h3
          refine ⟨hb, ?_, ?_, ?_⟩
          · simpa using h1
          · simpa using h2
          · simpa using h3

lemma parseLines_mem_processLine (fs : FS) (d : Path) (ld : Option Path) :
    ∀ (lines : List RawPath) (seen : List String) (e : TxtEntry),
      e ∈ parseLines fs d ld lines seen →
      ∃ line, line ∈ lines ∧ processLine fs d ld line = some e := by
  intro lines
  induction lines with
  | nil => intro seen e he; simp [parseLines] at he
  | cons l rest ih =>
    intro seen e he
    rw [parseLines] at he
    cases hp : processLine fs d ld l with
    | none =>
      rw [hp] at he
      obtain ⟨line, hm, hline⟩ := ih seen e he
      exact ⟨line, List.mem_cons_of_mem l hm, hline⟩
    | some e' =>
      rw [hp] at he
      have he' : e ∈ (if e'.rel_path ∈ seen then parseLines fs d ld rest seen
          else e' :: parseLines fs d ld rest (seen ++ [e'.rel_path])) := he
      by_cases hs : e'.rel_path ∈ seen
      · rw [if_pos hs] at he'
        obtain ⟨line, hm, hline⟩ := ih seen e he'
        exact ⟨line, List.mem_cons_of_mem l hm, hline⟩
      · rw [if_neg hs] at he'
        rcases List.mem_cons.mp he' with rfl | hmem
        · exact ⟨l, List.mem_cons_self l rest, hp⟩
        · obtain ⟨line, hm, hline⟩ := ih _ e hmem
          exact ⟨line, List.mem_cons_of_mem l hm, hline⟩

/-- C5: the manifest loop skips blank lines, resolves each line with the
manifest's own directory as base, and produces no entry when the resolved
image path does not exist, is not a regular file, or its lower-cased
extension is not in the allow-list; and every entry of the result comes from
a manifest line passing all three checks. -/
theorem loader_line_filtering (fs : FS) (d : Path) (ld : Option Path) :
    (∀ line : RawPath, line.isAbs = false → line.comps = [] →
      processLine fs d ld line = none)
    ∧ (∀ line : RawPath,
      (fs.pathExists (resolveRaw fs (resolve_path_with_base fs line (some d))) = false
        ∨ fs.isFile (resolveRaw fs (resolve_path_with_base fs line (some d))) = false
        ∨ strLower (pySuffix ((resolve_path_with_base fs line (some d)).comps.getLastD ""))
            ∉ IMAGE_EXTS) →
      processLine fs d ld line = none)
    ∧ (∀ (lines : List RawPath) (e : TxtEntry), e ∈ parseLines fs d ld lines [] →
      ∃ line, line ∈ lines ∧ processLine fs d ld line = some e
        ∧ ¬(line.isAbs = false ∧ line.comps = [])
        ∧ fs.pathExists (resolveRaw fs (resolve_path_with_base fs line (some d))) = true
        ∧ fs.isFile (resolveRaw fs (resolve_path_with_base fs line (some d))) = true
        ∧ strLower (pySuffix ((resolve_path_with_base fs line (some d)).comps.getLastD ""))
            ∈ IMAGE_EXTS) := by
  refine ⟨?_, ?_, ?_⟩
  · intro line hab hcomps
    rw [processLine.eq_def, if_pos ⟨hab, hcomps⟩]
  · intro line hfail
    rw [processLine.eq_def]
    by_cases hb : line.isAbs = false ∧ line.comps = []
    · rw [if_pos hb]
    · rw [if_neg hb]
      rcases hfail with h1 | h2 | h3
      · rw [if_pos h1]
      · by_cases h1 : fs.pathExists (resolveRaw fs (resolve_path_with_base fs line (some d))) = false
        · rw [if_pos h1]
        · rw [if_neg h1, if_pos h2]
      · by_cases h1 : fs.pathExists (resolveRaw fs (resolve_path_with_base fs line (some d))) = false
        · rw [if_pos h1]
        · rw [if_neg h1]
          by_cases h2 : fs.isFile (resolveRaw fs (resolve_path_with_base fs line (some d))) = false
          · rw [if_pos h2]
          · rw [if_neg h2, if_pos h3]
  · intro lines e he
    obtain ⟨line, hm, hline⟩ := parseLines_mem_processLine fs d ld lines [] e he
    obtain ⟨hb, h1, h2, h3⟩ := processLine_some_checks fs d ld line e hline
    exact ⟨line, hm, hline, hb, h1, h2, h3⟩

theorem loader_line_filtering_w :
    processLine fsW ["data"] (some ["data", "labels"]) ⟨false, []⟩ = none
    ∧ processLine fsW ["data"] (some ["data", "labels"]) ⟨true, ["nope", "x.jpg"]⟩ = none
    ∧ (∃ line, line ∈ linesW
        ∧ processLine fsW ["data"] (some ["data", "labels"]) line =
            some ⟨["data", "images", "a.jpg"], ["data", "labels", "a.txt"], "a.jpg", "a.txt"⟩
        ∧ ¬(line.isAbs = false ∧ line.comps = [])
        ∧ fsW.pathExists (resolveRaw fsW (resolve_path_with_base fsW line (some ["data"]))) = true
        ∧ fsW.isFile (resolveRaw fsW (resolve_path_with_base fsW line (some ["data"]))) = true
        ∧ strLower (pySuffix ((resolve_path_with_base fsW line (some ["data"])).comps.getLastD ""))
            ∈ IMAGE_EXTS) :=
  ⟨(loader_line_filtering fsW ["data"] (some ["data", "labels"])).1 ⟨false, []⟩ rfl rfl,
   (loader_line_filtering fsW ["data"] (some ["data", "labels"])).2.1
     ⟨true, ["nope", "x.jpg"]⟩ (Or.inl (by decide)),
   (loader_line_filtering fsW ["data"] (some ["data", "labels"])).2.2 linesW
     ⟨["data", "images", "a.jpg"], ["data", "labels", "a.txt"], "a.jpg", "a.txt"⟩ (by decide)⟩

/-! Claim C8: deduplication keeps the first occurrence of each relative-path
key. -/

/-- First-occurrence-wins filtering on the per-line entries, the behavior the
claim ascribes to the loop's `seen_rel_paths` set. -/
def dedupByRel : List TxtEntry → List String → List TxtEntry
  | [], _ => []
  | e :: rest, seen =>
    if e.rel_path ∈ seen then dedupByRel rest seen
    else e :: dedupByRel rest (seen ++ [e.rel_path])

lemma parseLines_eq_dedup (fs : FS) (d : Path) (ld : Option Path) :
    ∀ (lines : List RawPath) (seen : List String),
      parseLines fs d ld lines seen =
        dedupByRel (lines.filterMap (processLine fs d ld)) seen := by
  intro lines
  induction lines with
  | nil => intro seen; rfl
  | cons l rest ih =>
    intro seen
    rw [parseLines, List.filterMap_cons]
    cases hp : processLine fs d ld l with
    | none => exact ih seen
    | some e =>
      show (if e.rel_path ∈ seen then parseLines fs d ld rest seen
          else e :: parseLines fs d ld rest (seen ++ [e.rel_path]))
        = dedupByRel (e :: rest.filterMap (processLine fs d ld)) seen
      rw [dedupByRel]
      by_cases hs : e.rel_path ∈ seen
      · rw [if_pos hs, if_pos hs]
        exact ih seen
      · rw [if_neg hs, if_neg hs, ih (seen ++ [e.rel_path])]

lemma processLine_explicit_key (fs : FS) (d : Path) (ldir : Path) (line : RawPath)
    (e : TxtEntry) (h : processLine fs d (some ldir) line = some e) :
    find_label_for_image fs (resolveRaw fs (resolve_path_with_base fs line (some d))) ldir =
      some (e.rel_path, e.label_rel, e.label_path) := by
  rw [processLine.eq_def] at h
  split at h
  · exact Option.noConfusion h
  · split at h
    · exact Option.noConfusion h
    · split at h
      · exact Option.noConfusion h
      · split at h
        · exact Option.noConfusion h
        · have h2 : (match find_label_for_image fs
              (resolveRaw fs (resolve_path_with_base fs line (some d))) ldir with
            | some (rel, lrel, labs) =>
              some (⟨resolveRaw fs (resolve_path_with_base fs line (some d)), labs, rel, lrel⟩
                : TxtEntry)
            | none => none) = some e := h
          cases hf : find_label_for_image fs
              (resolveRaw fs (resolve_path_with_base fs line (some d))) ldir with
          | none => rw [hf] at h2; exact Option.noConfusion h2
          | some x =>
            obtain ⟨rel, lrel, labs⟩ := x
            rw [hf] at h2
            injection h2 with h3
            subst h3
            rfl

lemma processLine_auto_key (fs : FS) (d : Path) (line : RawPath) (e : TxtEntry)
    (h : processLine fs d none line = some e) :
    e.rel_path = (resolveRaw fs (resolve_path_with_base fs line (some d))).getLastD ""
    ∧ e.label_rel = e.label_path.getLastD "" := by
  rw [processLine.eq_def] at h
  split at h
  · exact Option.noConfusion h
  · split at h
    · exact Option.noConfusion h
    · split at h
      · exact Option.noConfusion h
      · split at h
        · exact Option.noConfusion h
        · have h2 : (match auto_find_label_from_image_path fs
              (resolveRaw fs (resolve_path_with_base fs line (some d))) with
            | some labs =>
              some (⟨resolveRaw fs (resolve_path_with_base fs line (some d)), labs,
                (resolveRaw fs (resolve_path_with_base fs line (some d))).getLastD "",
                labs.getLastD ""⟩ : TxtEntry)
            | none => none) = some e := h
          cases hf : auto_find_label_from_image_path fs
              (resolveRaw fs (resolve_path_with_base fs line (some d))) with
          | none => rw [hf] at h2; exact Option.noConfusion h2
          | some labs =>
            rw [hf] at h2
            injection h2 with h3
            subst h3
            exact ⟨rfl, rfl⟩

/-- C8: the manifest loop equals first-occurrence-wins filtering of the
per-line entries keyed by `rel_path` (later duplicates are dropped silently,
without error); the key is the relative path of the first matching ancestor
in explicit mode and the bare image filename in auto mode (with the label's
filename as `label_rel`). -/
theorem dedup_first_occurrence_wins (fs : FS) (d : Path) :
    (∀ (ld : Option Path) (lines : List RawPath) (seen : List String),
      parseLines fs d ld lines seen =
        dedupByRel (lines.filterMap (processLine fs d ld)) seen)
    ∧ (∀ (ldir : Path) (line : RawPath) (e : TxtEntry),
      processLine fs d (some ldir) line = some e →
      find_label_for_image fs (resolveRaw fs (resolve_path_with_base fs line (some d))) ldir =
        some (e.rel_path, e.label_rel, e.label_path))
    ∧ (∀ (line : RawPath) (e : TxtEntry),
      processLine fs d none line = some e →
      e.rel_path = (resolveRaw fs (resolve_path_with_base fs line (some d))).getLastD ""
      ∧ e.label_rel = e.label_path.getLastD "") :=
  ⟨fun ld => parseLines_eq_dedup fs d ld,
   fun ldir line e => processLine_explicit_key fs d ldir line e,
   fun line e => processLine_auto_key fs d line e⟩

theorem dedup_first_occurrence_wins_w :
    parseLines fsW ["data"] none linesW [] =
      [⟨["data", "images", "a.jpg"], ["data", "labels", "a.txt"], "a.jpg", "a.txt"⟩,
       ⟨["ds2", "images", "train", "d.jpg"], ["ds2", "labels", "train", "d.txt"],
        "d.jpg", "d.txt"⟩]
    ∧ (⟨["ds2", "images", "train", "d.jpg"], ["ds2", "labels", "train", "d.txt"],
        "d.jpg", "d.txt"⟩ : TxtEntry).rel_path =
      (resolveRaw fsW (resolve_path_with_base fsW ⟨true, ["ds2", "images", "train", "d.jpg"]⟩
        (some ["data"]))).getLastD "" :=
  ⟨((dedup_first_occurrence_wins fsW ["data"]).1 none linesW []).trans (by decide),
   ((dedup_first_occurrence_wins fsW ["data"]).2.2 ⟨true, ["ds2", "images", "train", "d.jpg"]⟩
     ⟨["ds2", "images", "train", "d.jpg"], ["ds2", "labels", "train", "d.txt"],
      "d.jpg", "d.txt"⟩ (by decide)).1⟩

end CVDataViewer
